import Mathlib

/-
Verification of the word-segmentation program in `src/parse_words.py`.

The embedding translates the recursive solution and its prefix-trie data
structure into executable Lean definitions:

* A Python trie is a `dict` mapping single letters to sub-tries, with the
  sentinel key `""` holding the matched word.  It is embedded as `Trie`, a
  node carrying the optional sentinel entry (`Option String`) and an
  association list of single-character edges (`List (Char × Trie)`),
  mirroring `dict.get` / `dict.__setitem__` by `lookupChild` / `updateAssoc`
  and key insertion by appending.
* `add_to_prefix_trie`, `make_prefix_trie`, `prefixes_of` and the inner
  `recur` of `solution_recursive` are translated line by line.  The Python
  dictionary argument (a `set`) is embedded as a `List String`; invariance
  of the results under permutation of that list is proved below.
* Python's call stack is made explicit by a fuel parameter in `recurAux`:
  `none` models a `RecursionError` (non-termination of the recursion),
  `some none` models `recur` returning `None` (no segmentation), and
  `some (some ws)` models a successful chain of words.  The fuel
  `text.length + 1` used by `segment` is proved sufficient whenever every
  dictionary word is non-empty.
* Two latent defects of the source are modelled explicitly.  Line 139
  reads `return Non` — a reference to an undefined name, raising
  `NameError` at runtime — so `solution_recursive` returns
  `Except.error PyError.nameError` on the no-segmentation path.  And on
  the empty-chain success (empty text) `recur(0)` returns
  `ChainLink.EMPTY`, a `ChainNull` instance; `ChainNull` (unlike
  `ChainLink`, src line 74) defines no `__iter__`, so line 140's
  `' '.join(chain)` raises `TypeError`, modelled as
  `Except.error PyError.typeError`.
-/

namespace ParseWords

/-- A prefix trie: the optional sentinel entry (Python key `""`, holding the
matched word) and the outgoing single-character edges (the other dict keys). -/
inductive Trie where
  | node : Option String → List (Char × Trie) → Trie

/-- The sentinel entry of a trie node: Python `trie.get('')`. -/
def terminalOf : Trie → Option String
  | .node t _ => t

/-- The outgoing edges of a trie node. -/
def childrenOf : Trie → List (Char × Trie)
  | .node _ c => c

/-- Python `trie.get(letter)`: look up a single-character edge. -/
def lookupChild (c : Char) : List (Char × Trie) → Option Trie
  | [] => none
  | (k, t) :: rest => if k = c then some t else lookupChild c rest

/-- Python `trie[letter] = value` for a letter already present. -/
def updateAssoc (c : Char) (v : Trie) : List (Char × Trie) → List (Char × Trie)
  | [] => []
  | (k, t) :: rest => if k = c then (k, v) :: rest else (k, t) :: updateAssoc c v rest

/-- The loop of `add_to_prefix_trie` (src lines 85-94): walk the letters of
`word`, descending into an existing edge or creating a fresh empty sub-trie,
and finally store the full word under the sentinel key. -/
def addToTrie : Trie → List Char → String → Trie
  | .node _ ch, [], word => .node (some word) ch
  | .node tm ch, c :: rest, word =>
    match lookupChild c ch with
    | some sub => .node tm (updateAssoc c (addToTrie sub rest word) ch)
    | none => .node tm (ch ++ [(c, addToTrie (.node none []) rest word)])

/-- `add_to_prefix_trie(trie, word)` (src lines 85-94). -/
def add_to_prefix_trie (t : Trie) (word : String) : Trie :=
  addToTrie t word.data word

/-- `make_prefix_trie(words)` (src lines 97-105): fold the insertion over the
words.  The Python argument is a `set`; here the iteration order is made
explicit as a list, and order-invariance is proved separately. -/
def make_prefix_trie (words : List String) : Trie :=
  words.foldl add_to_prefix_trie (.node none [])

/-- The `for letter in text` loop of `prefixes_of` (src lines 113-120):
descend one edge per letter, yielding the sentinel word of each node
reached, and stop at the first missing edge. -/
def prefixesLoop : List Char → Trie → List String
  | [], _ => []
  | c :: cs, t =>
    match lookupChild c (childrenOf t) with
    | none => []
    | some sub => (terminalOf sub).toList ++ prefixesLoop cs sub

/-- `prefixes_of(text, trie)` (src lines 108-120), with the generator's
output materialised as the (finite) list of yielded words. -/
def prefixes_of (text : List Char) (t : Trie) : List String :=
  (terminalOf t).toList ++ prefixesLoop text t

/-- The `for prefix in prefixes_of(...)` loop inside `recur`
(src lines 132-135): try each candidate word in order; `f` is the recursive
call at the advanced position.  `none` propagates a `RecursionError`;
`some none` is Python `None` ("no segmentation of this suffix"). -/
def tryList (f : Nat → Option (Option (List String))) (index : Nat) :
    List String → Option (Option (List String))
  | [] => some none
  | p :: ps =>
    match f (index + p.length) with
    | none => none
    | some none => tryList f index ps
    | some (some out) => some (some (p :: out))

/-- `recur(index)` (src lines 126-135) with an explicit fuel bound on the
call-stack depth.  Exhausted fuel (`none`) models Python's unbounded
recursion / `RecursionError`; the memoisation of `functools.cache` does not
change the value computed, only the cost (see `fillTable` below). -/
def recurAux (trie : Trie) (text : List Char) : Nat → Nat → Option (Option (List String))
  | 0 => fun _ => none
  | fuel + 1 => fun index =>
    if text.drop index = [] then some (some [])
    else tryList (recurAux trie text fuel) index (prefixes_of (text.drop index) trie)

/-- The ways `solution_recursive` can raise at runtime: the undefined
name `Non` on line 139 (`NameError`), `' '.join` applied to the
non-iterable `ChainLink.EMPTY` (`ChainNull` defines no `__iter__`, so the
zero-word success raises `TypeError`), and unbounded recursion
(`RecursionError`). -/
inductive PyError where
  | nameError
  | typeError
  | recursionError

/-- Python `' '.join(chain)`. -/
def joinWords : List String → String
  | [] => ""
  | [w] => w
  | w :: ws => w ++ " " ++ joinWords ws

/-- The word chain computed by `recur(0)` (src line 137), with fuel
`length + 1`, which is proved sufficient for dictionaries of non-empty
words. -/
def segment (text : String) (words : List String) : Option (Option (List String)) :=
  recurAux (make_prefix_trie words) text.data (text.data.length + 1) 0

/-- `solution_recursive(text, words)` (src lines 123-140).  On the
no-segmentation path the source executes `return Non`, a reference to an
undefined name, so the call raises `NameError` instead of returning.  On
the zero-word success — only reachable for empty text — `recur(0)`
returns `ChainLink.EMPTY`, a `ChainNull`, which defines no `__iter__`,
so `' '.join(chain)` raises `TypeError`.  A non-empty chain is a
`ChainLink`, whose iteration yields the words in order. -/
def solution_recursive (text : String) (words : List String) : Except PyError String :=
  match segment text words with
  | none => .error .recursionError
  | some none => .error .nameError
  | some (some []) => .error .typeError
  | some (some (w :: chain)) => .ok (joinWords (w :: chain))

/-- Concatenation of a sequence of words (the `concat(w1..wn)` of the spec's
round-trip property). -/
def concatAll : List String → String
  | [] => ""
  | w :: ws => w ++ concatAll ws

/-- Follow a path of characters from the root, edge by edge. -/
def nodeAtPath : Trie → List Char → Option Trie
  | t, [] => some t
  | t, c :: cs =>
    match lookupChild c (childrenOf t) with
    | none => none
    | some sub => nodeAtPath sub cs

/-- The sentinel word stored at the end of a path, if the path exists. -/
def pathTerminal (t : Trie) (cs : List Char) : Option String :=
  match nodeAtPath t cs with
  | none => none
  | some n => terminalOf n

/-- All initial segments of a list, shortest first. -/
def initSegs : List Char → List (List Char)
  | [] => [[]]
  | c :: cs => [] :: (initSegs cs).map (fun ds => c :: ds)

/-- The value of the memoised subproblem at position `j`, read off from the
fuelled recursion. -/
def recurRes (trie : Trie) (text : List Char) (j : Nat) : Option (List String) :=
  match recurAux trie text (text.length + 1) j with
  | some r => r
  | none => none

/-- The candidate loop of `recur`, reading continuations from a memo table
instead of recursing: entry `p.length - 1` of `table` holds the already
computed result for the position advanced by `p`. -/
def tryTable (table : List (Option (List String))) : List String → Option (List String)
  | [] => none
  | p :: ps =>
    match table.get? (p.length - 1) with
    | some (some out) => some (p :: out)
    | _ => tryTable table ps

/-- Bottom-up construction of the memo table of `functools.cache`: after
`n` steps the table holds, front to back, the results for positions
`text.length + 1 - n` through `text.length`, each entry computed exactly
once from the entries after it. -/
def fillTable (trie : Trie) (text : List Char) : Nat → List (Option (List String))
  | 0 => []
  | n + 1 =>
    (if n = 0 then some [] else
      tryTable (fillTable trie text n) (prefixes_of (text.drop (text.length - n)) trie))
      :: fillTable trie text n

/-! ### Basic facts about strings and association lists -/

theorem str_length_eq (s : String) : s.length = s.data.length := rfl

theorem str_ext {s t : String} (h : s.data = t.data) : s = t := by
  cases s; cases t; exact congrArg String.mk h

theorem str_data_append (s t : String) : (s ++ t).data = s.data ++ t.data := by
  cases s; cases t; rfl

theorem lookupChild_update_self {c : Char} {l : List (Char × Trie)} {u : Trie} (v : Trie)
    (h : lookupChild c l = some u) :
    lookupChild c (updateAssoc c v l) = some v := by
  induction l with
  | nil => simp [lookupChild] at h
  | cons p rest ih =>
    obtain ⟨k, t⟩ := p
    by_cases hk : k = c
    · subst hk
      simp [lookupChild, updateAssoc]
    · simp [lookupChild, updateAssoc, hk] at h ⊢
      exact ih h

theorem lookupChild_update_ne {c d : Char} (v : Trie) (l : List (Char × Trie))
    (h : d ≠ c) :
    lookupChild d (updateAssoc c v l) = lookupChild d l := by
  induction l with
  | nil => simp [updateAssoc]
  | cons p rest ih =>
    obtain ⟨k, t⟩ := p
    by_cases hk : k = c
    · have hcd : ¬ (c = d) := fun hcd => h hcd.symm
      simp [lookupChild, updateAssoc, hk, hcd]
    · by_cases hkd : k = d
      · simp [lookupChild, updateAssoc, hk, hkd, h]
      · simp [lookupChild, updateAssoc, hk, hkd, ih]

theorem lookupChild_append_self {c : Char} {l : List (Char × Trie)} (v : Trie)
    (h : lookupChild c l = none) :
    lookupChild c (l ++ [(c, v)]) = some v := by
  induction l with
  | nil => simp [lookupChild]
  | cons p rest ih =>
    obtain ⟨k, t⟩ := p
    by_cases hk : k = c
    · simp [lookupChild, hk] at h
    · simp [lookupChild, hk] at h ⊢
      exact ih h

theorem lookupChild_append_ne {c d : Char} (v : Trie) (l : List (Char × Trie))
    (h : d ≠ c) :
    lookupChild d (l ++ [(c, v)]) = lookupChild d l := by
  induction l with
  | nil =>
    have : ¬ (c = d) := fun hcd => h hcd.symm
    simp [lookupChild, this]
  | cons p rest ih =>
    obtain ⟨k, t⟩ := p
    by_cases hk : k = d <;> simp [lookupChild, hk, ih]

theorem updateAssoc_self {c : Char} {l : List (Char × Trie)} {v : Trie}
    (h : lookupChild c l = some v) :
    updateAssoc c v l = l := by
  induction l with
  | nil => simp [lookupChild] at h
  | cons p rest ih =>
    obtain ⟨k, t⟩ := p
    by_cases hk : k = c
    · subst hk
      simp [lookupChild] at h
      simp [updateAssoc, h]
    · simp [lookupChild, hk] at h
      simp [updateAssoc, hk, ih h]

/-! ### Paths in a trie -/

theorem pathTerminal_nil (t : Trie) : pathTerminal t [] = terminalOf t := rfl

theorem pathTerminal_cons_none {t : Trie} {c : Char} (cs : List Char)
    (h : lookupChild c (childrenOf t) = none) :
    pathTerminal t (c :: cs) = none := by
  simp [pathTerminal, nodeAtPath, h]

theorem pathTerminal_cons_some {t sub : Trie} {c : Char} (cs : List Char)
    (h : lookupChild c (childrenOf t) = some sub) :
    pathTerminal t (c :: cs) = pathTerminal sub cs := by
  simp [pathTerminal, nodeAtPath, h]

theorem pathTerminal_emptyTrie (cs : List Char) :
    pathTerminal (Trie.node none []) cs = none := by
  cases cs with
  | nil => rfl
  | cons c cs => exact pathTerminal_cons_none cs (by rfl)

/-- Effect of one insertion on every path: the inserted word's own path now
holds the word, every other path is untouched. -/
theorem pathTerminal_add (w : String) :
    ∀ (cs : List Char) (t : Trie) (ds : List Char),
      pathTerminal (addToTrie t cs w) ds = if ds = cs then some w else pathTerminal t ds := by
  intro cs
  induction cs with
  | nil =>
    intro t ds
    obtain ⟨tm, ch⟩ := t
    cases ds with
    | nil => simp [addToTrie, pathTerminal, nodeAtPath, terminalOf]
    | cons d ds =>
      simp only [addToTrie, if_neg (List.cons_ne_nil d ds)]
      cases h : lookupChild d ch with
      | none =>
        rw [pathTerminal_cons_none ds (t := Trie.node (some w) ch) h,
          pathTerminal_cons_none ds (t := Trie.node tm ch) h]
      | some sub =>
        rw [pathTerminal_cons_some ds (t := Trie.node (some w) ch) h,
          pathTerminal_cons_some ds (t := Trie.node tm ch) h]
  | cons c cs ih =>
    intro t ds
    obtain ⟨tm, ch⟩ := t
    cases hl : lookupChild c ch with
    | some sub =>
      simp only [addToTrie, hl]
      cases ds with
      | nil =>
        simp [pathTerminal_nil, terminalOf]
      | cons d ds =>
        by_cases hdc : d = c
        · subst hdc
          have h1 : lookupChild d (updateAssoc d (addToTrie sub cs w) ch)
              = some (addToTrie sub cs w) := lookupChild_update_self _ hl
          rw [pathTerminal_cons_some ds (t := Trie.node tm (updateAssoc d (addToTrie sub cs w) ch)) h1,
            pathTerminal_cons_some ds (t := Trie.node tm ch) hl, ih sub ds]
          by_cases hds : ds = cs
          · simp [hds]
          · rw [if_neg hds,
              if_neg (show ¬ (d :: ds = d :: cs) by intro h; injection h with h1 h2; exact hds h2)]
        · have h1 : lookupChild d (updateAssoc c (addToTrie sub cs w) ch) = lookupChild d ch :=
            lookupChild_update_ne _ ch hdc
          have hne : ¬ (d :: ds = c :: cs) := by
            intro h; injection h; contradiction
          cases h2 : lookupChild d ch with
          | none =>
            rw [pathTerminal_cons_none ds (t := Trie.node tm (updateAssoc c (addToTrie sub cs w) ch)) (h1.trans h2),
              if_neg hne, pathTerminal_cons_none ds (t := Trie.node tm ch) h2]
          | some s2 =>
            rw [pathTerminal_cons_some ds (t := Trie.node tm (updateAssoc c (addToTrie sub cs w) ch)) (h1.trans h2),
              if_neg hne, pathTerminal_cons_some ds (t := Trie.node tm ch) h2]
    | none =>
      simp only [addToTrie, hl]
      cases ds with
      | nil =>
        simp [pathTerminal_nil, terminalOf]
      | cons d ds =>
        by_cases hdc : d = c
        · subst hdc
          have h1 : lookupChild d (ch ++ [(d, addToTrie (Trie.node none []) cs w)])
              = some (addToTrie (Trie.node none []) cs w) := lookupChild_append_self _ hl
          rw [pathTerminal_cons_some ds (t := Trie.node tm (ch ++ [(d, addToTrie (Trie.node none []) cs w)])) h1,
            ih (Trie.node none []) ds, pathTerminal_emptyTrie]
          by_cases hds : ds = cs
          · simp [hds]
          · rw [if_neg hds, if_neg (by intro h; injection h; contradiction),
              pathTerminal_cons_none ds (t := Trie.node tm ch) hl]
        · have h1 : lookupChild d (ch ++ [(c, addToTrie (Trie.node none []) cs w)])
              = lookupChild d ch := lookupChild_append_ne _ ch hdc
          have hne : ¬ (d :: ds = c :: cs) := by
            intro h; injection h; contradiction
          cases h2 : lookupChild d ch with
          | none =>
            rw [pathTerminal_cons_none ds (t := Trie.node tm (ch ++ [(c, addToTrie (Trie.node none []) cs w)])) (h1.trans h2),
              if_neg hne, pathTerminal_cons_none ds (t := Trie.node tm ch) h2]
          | some s2 =>
            rw [pathTerminal_cons_some ds (t := Trie.node tm (ch ++ [(c, addToTrie (Trie.node none []) cs w)])) (h1.trans h2),
              if_neg hne, pathTerminal_cons_some ds (t := Trie.node tm ch) h2]

/-- Characterisation of the trie after folding insertions over `ws` on top
of an arbitrary trie `t`: a path holds `p` exactly when `p` is a word of
`ws` spelling that path, or no word of `ws` spells it and it already held
`p` in `t`. -/
theorem pathTerminal_foldl :
    ∀ (ws : List String) (t : Trie) (cs : List Char) (p : String),
      (pathTerminal (ws.foldl add_to_prefix_trie t) cs = some p ↔
        ((p ∈ ws ∧ p.data = cs) ∨ ((∀ v ∈ ws, v.data ≠ cs) ∧ pathTerminal t cs = some p))) := by
  intro ws
  induction ws with
  | nil =>
    intro t cs p
    simp [List.foldl]
  | cons w ws ih =>
    intro t cs p
    rw [List.foldl_cons, ih]
    constructor
    · rintro (⟨hmem, hdata⟩ | ⟨hnone, hpt⟩)
      · exact Or.inl ⟨List.mem_cons_of_mem w hmem, hdata⟩
      · rw [add_to_prefix_trie, pathTerminal_add w w.data t cs] at hpt
        by_cases hcw : cs = w.data
        · rw [if_pos hcw] at hpt
          have hpw : p = w := by injection hpt with h; exact h.symm
          exact Or.inl ⟨by rw [hpw]; exact List.mem_cons_self w ws, by rw [hpw, hcw]⟩
        · rw [if_neg hcw] at hpt
          refine Or.inr ⟨?_, hpt⟩
          intro v hv
          cases List.mem_cons.mp hv with
          | inl hvw => rw [hvw]; exact fun h => hcw h.symm
          | inr hvs => exact hnone v hvs
    · rintro (⟨hmem, hdata⟩ | ⟨hnone, hpt⟩)
      · by_cases hex : ∃ v ∈ ws, v.data = cs
        · obtain ⟨v, hv, hvdata⟩ := hex
          have hvp : v = p := str_ext (hvdata.trans hdata.symm)
          exact Or.inl ⟨by rw [← hvp]; exact hv, hdata⟩
        · refine Or.inr ⟨?_, ?_⟩
          · intro v hv hvdata
            exact hex ⟨v, hv, hvdata⟩
          · rw [add_to_prefix_trie, pathTerminal_add w w.data t cs]
            cases List.mem_cons.mp hmem with
            | inl hpw =>
              rw [if_pos (by rw [hpw] at hdata; exact hdata.symm)]
              rw [hpw]
            | inr hps => exact absurd ⟨p, hps, hdata⟩ hex
      · have hw : cs ≠ w.data := fun h => hnone w (List.mem_cons_self w ws) h.symm
        refine Or.inr ⟨fun v hv => hnone v (List.mem_cons_of_mem w hv), ?_⟩
        rw [add_to_prefix_trie, pathTerminal_add w w.data t cs, if_neg hw]
        exact hpt

/-- Main trie characterisation: in the trie built from `ws`, the path `cs`
holds the word `p` exactly when `p` is a member of `ws` spelling `cs`. -/
theorem pathTerminal_make (ws : List String) (cs : List Char) (p : String) :
    pathTerminal (make_prefix_trie ws) cs = some p ↔ p ∈ ws ∧ p.data = cs := by
  rw [make_prefix_trie, pathTerminal_foldl]
  constructor
  · rintro (h | ⟨h1, h2⟩)
    · exact h
    · rw [pathTerminal_emptyTrie] at h2
      exact absurd h2 (by simp)
  · exact Or.inl

/-- Re-inserting a word that is already stored (its full path exists and
ends in the word itself) leaves the trie unchanged, node for node. -/
theorem addToTrie_absorb :
    ∀ (cs : List Char) (t : Trie) (w : String),
      pathTerminal t cs = some w → addToTrie t cs w = t := by
  intro cs
  induction cs with
  | nil =>
    intro t w h
    obtain ⟨tm, ch⟩ := t
    rw [pathTerminal_nil] at h
    simp only [terminalOf] at h
    simp [addToTrie, h]
  | cons c cs ih =>
    intro t w h
    obtain ⟨tm, ch⟩ := t
    cases hl : lookupChild c ch with
    | none =>
      rw [pathTerminal_cons_none cs (t := Trie.node tm ch) hl] at h
      exact absurd h (by simp)
    | some sub =>
      rw [pathTerminal_cons_some cs (t := Trie.node tm ch) hl] at h
      simp only [addToTrie, hl]
      rw [ih sub w h, updateAssoc_self hl]

/-- Inserting the word `w` preserves a stored word `p`: the only path an
insertion overwrites is `w`'s own path, and there it writes `w` back. -/
theorem pathTerminal_add_preserve {t : Trie} {p : String} {cs : List Char}
    (h : pathTerminal t cs = some p) (hp : p.data = cs) (w : String) :
    pathTerminal (add_to_prefix_trie t w) cs = some p := by
  rw [add_to_prefix_trie, pathTerminal_add w w.data t cs]
  by_cases hcw : cs = w.data
  · rw [if_pos hcw]
    have : w = p := str_ext (by rw [hp, hcw])
    rw [this]
  · rw [if_neg hcw]
    exact h

/-! ### The prefix query -/

theorem filterMap_congr_aux {α β : Type} (f g : α → Option β) :
    ∀ (l : List α), (∀ a ∈ l, f a = g a) → l.filterMap f = l.filterMap g := by
  intro l
  induction l with
  | nil => intro _; rfl
  | cons a l ih =>
    intro h
    have ha := h a (List.mem_cons_self a l)
    have hrest := ih fun b hb => h b (List.mem_cons_of_mem a hb)
    cases hg : g a with
    | none => rw [List.filterMap_cons_none (ha.trans hg), List.filterMap_cons_none hg, hrest]
    | some b => rw [List.filterMap_cons_some (ha.trans hg), List.filterMap_cons_some hg, hrest]

theorem filterMap_none_aux {α β : Type} :
    ∀ (l : List α), l.filterMap (fun _ => (none : Option β)) = [] := by
  intro l
  induction l with
  | nil => rfl
  | cons a l ih => rw [List.filterMap_cons_none rfl, ih]

/-- Normal form of `prefixes_of`: walking the text through the trie yields
precisely the sentinel words stored along the initial segments of the text,
shortest segment first. -/
theorem prefixes_of_eq :
    ∀ (text : List Char) (t : Trie),
      prefixes_of text t = (initSegs text).filterMap (fun cs => pathTerminal t cs) := by
  intro text
  induction text with
  | nil =>
    intro t
    cases h : terminalOf t with
    | none =>
      rw [prefixes_of, prefixesLoop, h, initSegs,
        List.filterMap_cons_none (by rw [pathTerminal_nil, h])]
      rfl
    | some w =>
      rw [prefixes_of, prefixesLoop, h, initSegs,
        List.filterMap_cons_some (by rw [pathTerminal_nil, h])]
      rfl
  | cons c cs ih =>
    intro t
    have hrest : prefixesLoop (c :: cs) t
        = (initSegs cs).filterMap (fun ds => pathTerminal t (c :: ds)) := by
      cases hl : lookupChild c (childrenOf t) with
      | none =>
        have hnone : ∀ ds ∈ initSegs cs, pathTerminal t (c :: ds) = (none : Option String) :=
          fun ds _ => pathTerminal_cons_none ds hl
        rw [prefixesLoop, hl, filterMap_congr_aux _ _ _ hnone, filterMap_none_aux]
      | some sub =>
        have hsub : ∀ ds ∈ initSegs cs, pathTerminal t (c :: ds) = pathTerminal sub ds :=
          fun ds _ => pathTerminal_cons_some ds hl
        rw [prefixesLoop, hl, filterMap_congr_aux _ _ _ hsub, ← ih sub, prefixes_of]
    have hmap : ((initSegs cs).map (fun ds => c :: ds)).filterMap (fun ds => pathTerminal t ds)
        = (initSegs cs).filterMap (fun ds => pathTerminal t (c :: ds)) := by
      rw [List.filterMap_map]
      rfl
    cases h : terminalOf t with
    | none =>
      rw [prefixes_of, h, initSegs,
        List.filterMap_cons_none (by rw [pathTerminal_nil, h]), hmap, ← hrest]
      rfl
    | some w =>
      rw [prefixes_of, h, initSegs,
        List.filterMap_cons_some (by rw [pathTerminal_nil, h]), hmap, ← hrest]
      rfl

theorem mem_initSegs : ∀ (l cs : List Char), (cs ∈ initSegs l ↔ ∃ rest, cs ++ rest = l) := by
  intro l
  induction l with
  | nil =>
    intro cs
    constructor
    · intro h
      simp only [initSegs, List.mem_singleton] at h
      subst h
      exact ⟨[], rfl⟩
    · rintro ⟨rest, h⟩
      have h1 := (List.append_eq_nil.mp h).1
      subst h1
      simp [initSegs]
  | cons c l ih =>
    intro cs
    cases cs with
    | nil =>
      simp [initSegs]
    | cons a cs =>
      simp only [initSegs, List.mem_cons, List.mem_map]
      constructor
      · rintro (h | ⟨ds, hds, hmap⟩)
        · exact absurd h (by simp)
        · obtain ⟨rest, hrest⟩ := (ih ds).mp hds
          injection hmap with h1 h2
          exact ⟨rest, by rw [← h1, ← h2, List.cons_append, hrest]⟩
      · rintro ⟨rest, hrest⟩
        rw [List.cons_append] at hrest
        injection hrest with h1 h2
        exact Or.inr ⟨cs, (ih cs).mpr ⟨rest, h2⟩, by rw [h1]⟩

/-- Membership in the prefix query output: exactly the dictionary words that
match the text right at the queried position, within the remaining length. -/
theorem mem_prefixes_iff (ws : List String) (stext : List Char) (p : String) :
    p ∈ prefixes_of stext (make_prefix_trie ws) ↔ p ∈ ws ∧ ∃ rest, p.data ++ rest = stext := by
  rw [prefixes_of_eq, List.mem_filterMap]
  constructor
  · rintro ⟨cs, hcs, hpt⟩
    obtain ⟨hmem, hdata⟩ := (pathTerminal_make ws cs p).mp hpt
    obtain ⟨rest, hrest⟩ := (mem_initSegs stext cs).mp hcs
    exact ⟨hmem, rest, by rw [hdata]; exact hrest⟩
  · rintro ⟨hmem, rest, hrest⟩
    exact ⟨p.data, (mem_initSegs stext p.data).mpr ⟨rest, hrest⟩,
      (pathTerminal_make ws p.data p).mpr ⟨hmem, rfl⟩⟩

theorem pairwise_filterMap_aux {α β : Type} (R : α → α → Prop) (S : β → β → Prop)
    (f : α → Option β)
    (h : ∀ a b a2 b2, R a b → f a = some a2 → f b = some b2 → S a2 b2) :
    ∀ l, List.Pairwise R l → List.Pairwise S (l.filterMap f) := by
  intro l
  induction l with
  | nil => intro _; exact List.Pairwise.nil
  | cons a l ih =>
    intro hp
    rw [List.pairwise_cons] at hp
    obtain ⟨hhead, htail⟩ := hp
    cases hfa : f a with
    | none => rw [List.filterMap_cons_none hfa]; exact ih htail
    | some b =>
      rw [List.filterMap_cons_some hfa, List.pairwise_cons]
      refine ⟨?_, ih htail⟩
      intro b2 hb2
      obtain ⟨a2, ha2, hf2⟩ := List.mem_filterMap.mp hb2
      exact h a a2 b b2 (hhead a2 ha2) hfa hf2

theorem pairwise_initSegs :
    ∀ (l : List Char), List.Pairwise (fun a b : List Char => a.length < b.length) (initSegs l) := by
  intro l
  induction l with
  | nil => simp [initSegs]
  | cons c l ih =>
    rw [initSegs, List.pairwise_cons]
    constructor
    · intro b hb
      obtain ⟨ds, _, hds⟩ := List.mem_map.mp hb
      rw [← hds]
      simp
    · rw [List.pairwise_map]
      exact ih.imp (by intro a b h; simpa using h)

/-- The prefix query yields words in strictly increasing length order. -/
theorem pairwise_prefixes (ws : List String) (stext : List Char) :
    List.Pairwise (fun a b : String => a.length < b.length)
      (prefixes_of stext (make_prefix_trie ws)) := by
  rw [prefixes_of_eq]
  refine pairwise_filterMap_aux (fun a b : List Char => a.length < b.length) _ _
    ?_ _ (pairwise_initSegs stext)
  intro a b a2 b2 hR hfa hfb
  have h1 := ((pathTerminal_make ws a a2).mp hfa).2
  have h2 := ((pathTerminal_make ws b b2).mp hfb).2
  rw [str_length_eq, str_length_eq, h1, h2]
  exact hR

theorem nodeAtPath_of_append :
    ∀ (cs : List Char) (t : Trie) (ds : List Char) (n : Trie),
      nodeAtPath t (cs ++ ds) = some n → ∃ m, nodeAtPath t cs = some m := by
  intro cs
  induction cs with
  | nil => intro t ds n _; exact ⟨t, rfl⟩
  | cons c cs ih =>
    intro t ds n h
    rw [List.cons_append, nodeAtPath] at h
    cases hl : lookupChild c (childrenOf t) with
    | none => rw [hl] at h; exact absurd h (by simp)
    | some sub =>
      rw [hl] at h
      obtain ⟨m, hm⟩ := ih sub ds n h
      exact ⟨m, by rw [nodeAtPath, hl]; exact hm⟩

theorem take_append_aux {α : Type} :
    ∀ (k : Nat) (l1 l2 : List α), k ≤ l1.length → (l1 ++ l2).take k = l1.take k := by
  intro k
  induction k with
  | zero => intro l1 l2 _; rfl
  | succ k ih =>
    intro l1 l2 h
    cases l1 with
    | nil => exact absurd h (by simp)
    | cons a l1 =>
      rw [List.cons_append, List.take_succ_cons, List.take_succ_cons, ih l1 l2 (by simpa using h)]

/-- Short-circuiting: once the walk falls off the trie after `k` symbols,
nothing of length `k` or more is ever yielded. -/
theorem prefixes_short_circuit (ws : List String) (stext : List Char) (k : Nat)
    (h : nodeAtPath (make_prefix_trie ws) (stext.take k) = none) :
    ∀ p ∈ prefixes_of stext (make_prefix_trie ws), p.length < k := by
  intro p hp
  obtain ⟨hmem, rest, hrest⟩ := (mem_prefixes_iff ws stext p).mp hp
  by_contra hge
  push_neg at hge
  have hpt : pathTerminal (make_prefix_trie ws) p.data = some p :=
    (pathTerminal_make ws p.data p).mpr ⟨hmem, rfl⟩
  have hnode : ∃ n, nodeAtPath (make_prefix_trie ws) p.data = some n := by
    rw [pathTerminal] at hpt
    cases hn : nodeAtPath (make_prefix_trie ws) p.data with
    | none => rw [hn] at hpt; exact absurd hpt (by simp)
    | some n => exact ⟨n, rfl⟩
  obtain ⟨n, hn⟩ := hnode
  have hsplit : p.data = p.data.take k ++ p.data.drop k := (List.take_append_drop k p.data).symm
  rw [hsplit] at hn
  obtain ⟨m, hm⟩ := nodeAtPath_of_append _ _ _ _ hn
  have htake : stext.take k = p.data.take k := by
    rw [← hrest]
    exact take_append_aux k p.data rest (by rw [← str_length_eq]; exact hge)
  rw [htake, hm] at h
  exact absurd h (by simp)

/-! ### The recursive search -/

theorem recurAux_zero (trie : Trie) (text : List Char) (index : Nat) :
    recurAux trie text 0 index = none := rfl

theorem recurAux_succ (trie : Trie) (text : List Char) (fuel index : Nat) :
    recurAux trie text (fuel + 1) index =
      if text.drop index = [] then some (some [])
      else tryList (recurAux trie text fuel) index (prefixes_of (text.drop index) trie) := rfl

theorem str_data_ne_nil {p : String} (h : p ≠ "") : p.data ≠ [] :=
  fun hd => h (str_ext hd)

theorem tryList_total (f : Nat → Option (Option (List String))) (index : Nat) :
    ∀ l : List String, (∀ p ∈ l, ∃ r, f (index + p.length) = some r) →
      ∃ r, tryList f index l = some r := by
  intro l
  induction l with
  | nil => intro _; exact ⟨none, rfl⟩
  | cons p ps ih =>
    intro h
    obtain ⟨r, hr⟩ := h p (List.mem_cons_self p ps)
    cases r with
    | none =>
      obtain ⟨r2, hr2⟩ := ih fun q hq => h q (List.mem_cons_of_mem p hq)
      exact ⟨r2, by rw [tryList, hr]; exact hr2⟩
    | some out => exact ⟨some (p :: out), by rw [tryList, hr]⟩

theorem tryList_mono (f g : Nat → Option (Option (List String)))
    (h : ∀ k r, f k = some r → g k = some r) (index : Nat) :
    ∀ (l : List String) (r : Option (List String)),
      tryList f index l = some r → tryList g index l = some r := by
  intro l
  induction l with
  | nil => intro r hr; exact hr
  | cons p ps ih =>
    intro r hr
    cases hf : f (index + p.length) with
    | none => rw [tryList, hf] at hr; exact absurd hr (by simp)
    | some r0 =>
      have hg := h _ _ hf
      cases r0 with
      | none =>
        rw [tryList, hf] at hr
        rw [tryList, hg]
        exact ih r hr
      | some out =>
        rw [tryList, hf] at hr
        rw [tryList, hg]
        exact hr

theorem tryList_mem_success (f : Nat → Option (Option (List String))) (index : Nat) :
    ∀ (l : List String) (out : List String), tryList f index l = some (some out) →
      ∃ p ∈ l, ∃ out2, f (index + p.length) = some (some out2) ∧ out = p :: out2 := by
  intro l
  induction l with
  | nil => intro out h; exact absurd h (by simp [tryList])
  | cons p ps ih =>
    intro out h
    cases hf : f (index + p.length) with
    | none => rw [tryList, hf] at h; exact absurd h (by simp)
    | some r0 =>
      cases r0 with
      | none =>
        rw [tryList, hf] at h
        obtain ⟨q, hq, out2, hf2, hout⟩ := ih out h
        exact ⟨q, List.mem_cons_of_mem p hq, out2, hf2, hout⟩
      | some out2 =>
        rw [tryList, hf] at h
        have : out = p :: out2 := by injection h with h1; injection h1 with h2; exact h2.symm
        exact ⟨p, List.mem_cons_self p ps, out2, hf, this⟩

theorem tryList_find_success (f : Nat → Option (Option (List String))) (index : Nat) :
    ∀ (l : List String) (p : String), p ∈ l →
      (∀ q ∈ l, ∃ r, f (index + q.length) = some r) →
      (∃ out2, f (index + p.length) = some (some out2)) →
      ∃ out, tryList f index l = some (some out) := by
  intro l
  induction l with
  | nil => intro p hp _ _; exact absurd hp (by simp)
  | cons q ps ih =>
    intro p hp htotal hwit
    obtain ⟨r, hr⟩ := htotal q (List.mem_cons_self q ps)
    cases r with
    | some out => exact ⟨q :: out, by rw [tryList, hr]⟩
    | none =>
      cases List.mem_cons.mp hp with
      | inl hpq =>
        obtain ⟨out2, hf2⟩ := hwit
        rw [← hpq] at hr
        rw [hf2] at hr
        exact absurd hr (by simp)
      | inr hps =>
        obtain ⟨out, hout⟩ :=
          ih p hps (fun q2 hq2 => htotal q2 (List.mem_cons_of_mem q hq2)) hwit
        exact ⟨out, by rw [tryList, hr]; exact hout⟩

/-- More fuel never changes a result that was already computed. -/
theorem recur_mono (trie : Trie) (text : List Char) :
    ∀ (fuel fuel2 index : Nat) (r : Option (List String)), fuel ≤ fuel2 →
      recurAux trie text fuel index = some r → recurAux trie text fuel2 index = some r := by
  intro fuel
  induction fuel with
  | zero => intro fuel2 index r _ h; exact absurd h (by simp [recurAux_zero])
  | succ fuel ih =>
    intro fuel2 index r hle h
    cases fuel2 with
    | zero => exact absurd hle (by omega)
    | succ fuel2 =>
      rw [recurAux_succ] at h
      rw [recurAux_succ]
      by_cases hd : text.drop index = []
      · rw [if_pos hd] at h; rw [if_pos hd]; exact h
      · rw [if_neg hd] at h
        rw [if_neg hd]
        exact tryList_mono _ _ (fun k r2 hk => ih fuel2 k r2 (by omega) hk) index _ r h

/-- Termination: when every dictionary word is non-empty, fuel exceeding the
remaining length suffices — each candidate advances the position by at least
one symbol, and positions never pass the end of the text. -/
theorem recur_total (ws : List String) (text : List Char) (hne : ∀ w ∈ ws, w ≠ "") :
    ∀ (fuel index : Nat), text.length - index < fuel →
      ∃ r, recurAux (make_prefix_trie ws) text fuel index = some r := by
  intro fuel
  induction fuel with
  | zero => intro index h; exact absurd h (by omega)
  | succ fuel ih =>
    intro index hlt
    by_cases hd : text.drop index = []
    · exact ⟨some [], by rw [recurAux_succ, if_pos hd]⟩
    · rw [recurAux_succ, if_neg hd]
      apply tryList_total
      intro p hp
      obtain ⟨hpmem, rest, hrest⟩ := (mem_prefixes_iff ws (text.drop index) p).mp hp
      have hplen : 1 ≤ p.length := by
        rw [str_length_eq]
        have := str_data_ne_nil (hne p hpmem)
        cases hdp : p.data with
        | nil => exact absurd hdp this
        | cons a l => simp
      have hfit : p.length ≤ text.length - index := by
        rw [str_length_eq]
        have := congrArg List.length hrest
        rw [List.length_append, List.length_drop] at this
        omega
      exact ih (index + p.length) (by omega)

/-- Soundness of any returned chain: it concatenates exactly to the suffix
of the text at the starting position, and all its words come from the
dictionary. -/
theorem recur_sound (ws : List String) (text : List Char) :
    ∀ (fuel index : Nat) (out : List String),
      recurAux (make_prefix_trie ws) text fuel index = some (some out) →
        (concatAll out).data = text.drop index ∧ ∀ w ∈ out, w ∈ ws := by
  intro fuel
  induction fuel with
  | zero => intro index out h; exact absurd h (by simp [recurAux_zero])
  | succ fuel ih =>
    intro index out h
    rw [recurAux_succ] at h
    by_cases hd : text.drop index = []
    · rw [if_pos hd] at h
      have : out = [] := by injection h with h1; injection h1 with h2; exact h2.symm
      subst this
      exact ⟨by rw [hd]; rfl, by simp⟩
    · rw [if_neg hd] at h
      obtain ⟨p, hp, out2, hf2, hout⟩ := tryList_mem_success _ _ _ _ h
      obtain ⟨hpmem, rest, hrest⟩ := (mem_prefixes_iff ws (text.drop index) p).mp hp
      obtain ⟨hcat2, hmem2⟩ := ih (index + p.length) out2 hf2
      subst hout
      constructor
      · rw [concatAll, str_data_append, hcat2]
        have hdrop : text.drop (index + p.length) = rest := by
          rw [← List.drop_drop, ← hrest, str_length_eq, List.drop_left]
        rw [hdrop, hrest]
      · intro w hw
        cases List.mem_cons.mp hw with
        | inl hwp => rw [hwp]; exact hpmem
        | inr hw2 => exact hmem2 w hw2

/-- Completeness: whenever the suffix at `index` is a concatenation of
dictionary words, the search succeeds (with enough fuel). -/
theorem recur_complete (ws : List String) (text : List Char) (hne : ∀ w ∈ ws, w ≠ "") :
    ∀ (fuel index : Nat) (parts : List String),
      text.length - index < fuel →
      (∀ w ∈ parts, w ∈ ws) →
      (concatAll parts).data = text.drop index →
      ∃ out, recurAux (make_prefix_trie ws) text fuel index = some (some out) := by
  intro fuel
  induction fuel with
  | zero => intro index parts h _ _; exact absurd h (by omega)
  | succ fuel ih =>
    intro index parts hlt hmem hcat
    by_cases hd : text.drop index = []
    · exact ⟨[], by rw [recurAux_succ, if_pos hd]⟩
    · cases parts with
      | nil =>
        have h0 : (concatAll []).data = ([] : List Char) := rfl
        rw [h0] at hcat
        exact absurd hcat.symm hd
      | cons w rest =>
        have hwmem : w ∈ ws := hmem w (List.mem_cons_self w rest)
        rw [concatAll, str_data_append] at hcat
        have hwp : w ∈ prefixes_of (text.drop index) (make_prefix_trie ws) :=
          (mem_prefixes_iff ws (text.drop index) w).mpr ⟨hwmem, (concatAll rest).data, hcat⟩
        have hdropw : text.drop (index + w.length) = (concatAll rest).data := by
          rw [← List.drop_drop, ← hcat, str_length_eq, List.drop_left]
        have hlen : ∀ q ∈ prefixes_of (text.drop index) (make_prefix_trie ws),
            1 ≤ q.length ∧ q.length ≤ text.length - index := by
          intro q hq
          obtain ⟨hqmem, rest2, hrest2⟩ := (mem_prefixes_iff ws (text.drop index) q).mp hq
          constructor
          · rw [str_length_eq]
            have := str_data_ne_nil (hne q hqmem)
            cases hdq : q.data with
            | nil => exact absurd hdq this
            | cons a l => simp
          · rw [str_length_eq]
            have := congrArg List.length hrest2
            rw [List.length_append, List.length_drop] at this
            omega
        have htotal : ∀ q ∈ prefixes_of (text.drop index) (make_prefix_trie ws),
            ∃ r, recurAux (make_prefix_trie ws) text fuel (index + q.length) = some r := by
          intro q hq
          obtain ⟨h1, h2⟩ := hlen q hq
          exact recur_total ws text hne fuel (index + q.length) (by omega)
        have hwit : ∃ out2,
            recurAux (make_prefix_trie ws) text fuel (index + w.length) = some (some out2) := by
          obtain ⟨h1, h2⟩ := hlen w hwp
          exact ih (index + w.length) rest (by omega)
            (fun v hv => hmem v (List.mem_cons_of_mem w hv)) hdropw.symm
        obtain ⟨out, hout⟩ := tryList_find_success _ index _ w hwp htotal hwit
        exact ⟨out, by rw [recurAux_succ, if_neg hd]; exact hout⟩

/-! ### Invariance under the dictionary's iteration order -/

theorem pathTerminal_perm {ws1 ws2 : List String} (hp : ws1.Perm ws2) (cs : List Char) :
    pathTerminal (make_prefix_trie ws1) cs = pathTerminal (make_prefix_trie ws2) cs := by
  cases h1 : pathTerminal (make_prefix_trie ws1) cs with
  | some p =>
    have h := (pathTerminal_make ws1 cs p).mp h1
    exact ((pathTerminal_make ws2 cs p).mpr ⟨hp.mem_iff.mp h.1, h.2⟩).symm
  | none =>
    cases h2 : pathTerminal (make_prefix_trie ws2) cs with
    | none => rfl
    | some q =>
      have h := (pathTerminal_make ws2 cs q).mp h2
      have h1q := (pathTerminal_make ws1 cs q).mpr ⟨hp.mem_iff.mpr h.1, h.2⟩
      rw [h1] at h1q
      exact absurd h1q (by simp)

theorem prefixes_perm {ws1 ws2 : List String} (hp : ws1.Perm ws2) (stext : List Char) :
    prefixes_of stext (make_prefix_trie ws1) = prefixes_of stext (make_prefix_trie ws2) := by
  rw [prefixes_of_eq, prefixes_of_eq]
  exact filterMap_congr_aux _ _ _ (fun cs _ => pathTerminal_perm hp cs)

theorem tryList_ext (f g : Nat → Option (Option (List String))) (h : ∀ k, f k = g k)
    (index : Nat) : ∀ l : List String, tryList f index l = tryList g index l := by
  intro l
  induction l with
  | nil => rfl
  | cons p ps ih =>
    rw [tryList, tryList, h (index + p.length)]
    cases g (index + p.length) with
    | none => rfl
    | some r =>
      cases r with
      | none => exact ih
      | some out => rfl

theorem recur_perm {ws1 ws2 : List String} (hp : ws1.Perm ws2) (text : List Char) :
    ∀ (fuel index : Nat),
      recurAux (make_prefix_trie ws1) text fuel index
        = recurAux (make_prefix_trie ws2) text fuel index := by
  intro fuel
  induction fuel with
  | zero => intro index; rfl
  | succ fuel ih =>
    intro index
    rw [recurAux_succ, recurAux_succ]
    by_cases hd : text.drop index = []
    · rw [if_pos hd, if_pos hd]
    · rw [if_neg hd, if_neg hd, prefixes_perm hp (text.drop index)]
      exact tryList_ext _ _ (fun k => ih k) index _

/-! ### The memo table -/

theorem prefixes_len (ws : List String) (text : List Char) (index : Nat)
    (hne : ∀ w ∈ ws, w ≠ "") :
    ∀ q ∈ prefixes_of (text.drop index) (make_prefix_trie ws),
      1 ≤ q.length ∧ index + q.length ≤ text.length := by
  intro q hq
  obtain ⟨hqmem, rest2, hrest2⟩ := (mem_prefixes_iff ws (text.drop index) q).mp hq
  have hlen := congrArg List.length hrest2
  rw [List.length_append, List.length_drop] at hlen
  have hq1 : 1 ≤ q.data.length := by
    have := str_data_ne_nil (hne q hqmem)
    cases hdq : q.data with
    | nil => exact absurd hdq this
    | cons a l => simp
  constructor
  · rw [str_length_eq]; exact hq1
  · rw [str_length_eq]; omega

theorem get?_map_range {β : Type} (f : Nat → β) (n i : Nat) (h : i < n) :
    ((List.range n).map f).get? i = some (f i) := by
  rw [List.get?_map, List.get?_range h]
  rfl

/-- With enough fuel the fuelled recursion computes `recurRes`. -/
theorem recurRes_spec (ws : List String) (text : List Char) (hne : ∀ w ∈ ws, w ≠ "")
    (j : Nat) :
    recurAux (make_prefix_trie ws) text (text.length + 1) j
      = some (recurRes (make_prefix_trie ws) text j) := by
  obtain ⟨r, hr⟩ := recur_total ws text hne (text.length + 1) j (by omega)
  have : recurRes (make_prefix_trie ws) text j = r := by
    unfold recurRes
    rw [hr]
  rw [this]
  exact hr

/-- The bottom-up table agrees, entry by entry, with the memoised recursion:
after `n` steps it lists the results for the last `n` positions. -/
theorem fillTable_spec (ws : List String) (text : List Char) (hne : ∀ w ∈ ws, w ≠ "") :
    ∀ n, n ≤ text.length + 1 →
      fillTable (make_prefix_trie ws) text n
        = (List.range n).map
            (fun i => recurRes (make_prefix_trie ws) text (text.length + 1 - n + i)) := by
  intro n
  induction n with
  | zero => intro _; rfl
  | succ n ih =>
    intro hn
    have hnL : n ≤ text.length := by omega
    rw [fillTable, List.range_succ_eq_map, List.map_cons, List.map_map]
    have hmaps : (List.range n).map
          ((fun i => recurRes (make_prefix_trie ws) text (text.length + 1 - (n + 1) + i))
            ∘ Nat.succ)
        = (List.range n).map
            (fun i => recurRes (make_prefix_trie ws) text (text.length + 1 - n + i)) := by
      have hfg : ((fun i => recurRes (make_prefix_trie ws) text
            (text.length + 1 - (n + 1) + i)) ∘ Nat.succ)
          = (fun i => recurRes (make_prefix_trie ws) text (text.length + 1 - n + i)) := by
        funext i
        simp only [Function.comp_apply]
        exact congrArg (recurRes (make_prefix_trie ws) text) (by omega)
      rw [hfg]
    rw [hmaps, ← ih (by omega)]
    have hhead : (if n = 0 then some [] else
        tryTable (fillTable (make_prefix_trie ws) text n)
          (prefixes_of (text.drop (text.length - n)) (make_prefix_trie ws)))
        = recurRes (make_prefix_trie ws) text (text.length + 1 - (n + 1) + 0) := by
      have hpos : text.length + 1 - (n + 1) + 0 = text.length - n := by omega
      rw [hpos]
      cases n with
      | zero =>
        have hbase : recurAux (make_prefix_trie ws) text (text.length + 1) text.length
            = some (some []) := by
          rw [recurAux_succ, if_pos (List.drop_length text)]
        have : recurRes (make_prefix_trie ws) text text.length = some [] := by
          unfold recurRes
          rw [hbase]
        rw [if_pos rfl, Nat.sub_zero, this]
      | succ m =>
        rw [if_neg (Nat.succ_ne_zero m)]
        have hL1 : 1 ≤ text.length := by omega
        have hposlt : text.length - (m + 1) < text.length := by omega
        have hdrop : text.drop (text.length - (m + 1)) ≠ [] := by
          intro h
          have := congrArg List.length h
          rw [List.length_drop] at this
          simp at this
          omega
        have hagree : ∀ l : List String,
            (∀ q ∈ l, 1 ≤ q.length ∧ (text.length - (m + 1)) + q.length ≤ text.length) →
            tryList (recurAux (make_prefix_trie ws) text text.length)
                (text.length - (m + 1)) l
              = some (tryTable (fillTable (make_prefix_trie ws) text (m + 1)) l) := by
          intro l
          induction l with
          | nil => intro _; rfl
          | cons q qs ihl =>
            intro hall
            obtain ⟨hq1, hq2⟩ := hall q (List.mem_cons_self q qs)
            obtain ⟨r, hr⟩ := recur_total ws text hne text.length
              ((text.length - (m + 1)) + q.length) (by omega)
            have hrmono := recur_mono (make_prefix_trie ws) text text.length
              (text.length + 1) _ r (by omega) hr
            have hrres : r = recurRes (make_prefix_trie ws) text
                ((text.length - (m + 1)) + q.length) := by
              have := recurRes_spec ws text hne ((text.length - (m + 1)) + q.length)
              rw [hrmono] at this
              injection this
            have hget : (fillTable (make_prefix_trie ws) text (m + 1)).get? (q.length - 1)
                = some (recurRes (make_prefix_trie ws) text
                    (text.length + 1 - (m + 1) + (q.length - 1))) := by
              rw [ih (by omega)]
              exact get?_map_range _ _ _ (by omega)
            have harg2 : text.length + 1 - (m + 1) + (q.length - 1)
                = (text.length - (m + 1)) + q.length := by omega
            rw [harg2] at hget
            rw [tryList, hr, tryTable, hget]
            rw [hrres]
            cases hrr : recurRes (make_prefix_trie ws) text
                ((text.length - (m + 1)) + q.length) with
            | some out => rfl
            | none =>
              exact ihl fun q2 hq2 => hall q2 (List.mem_cons_of_mem q hq2)
        have hpref := prefixes_len ws text (text.length - (m + 1)) hne
        have htl := hagree (prefixes_of (text.drop (text.length - (m + 1)))
            (make_prefix_trie ws)) hpref
        have hrec : recurAux (make_prefix_trie ws) text (text.length + 1)
            (text.length - (m + 1))
            = tryList (recurAux (make_prefix_trie ws) text text.length)
                (text.length - (m + 1))
                (prefixes_of (text.drop (text.length - (m + 1))) (make_prefix_trie ws)) := by
          rw [recurAux_succ, if_neg hdrop]
        have hres := recurRes_spec ws text hne (text.length - (m + 1))
        rw [hrec, htl] at hres
        exact Option.some_inj.mp hres
    rw [hhead]

theorem pathTerminal_foldl_preserve :
    ∀ (l : List String) (t : Trie) (w : String),
      pathTerminal t w.data = some w →
      pathTerminal (l.foldl add_to_prefix_trie t) w.data = some w := by
  intro l
  induction l with
  | nil => intro t w h; exact h
  | cons v l ih =>
    intro t w h
    exact ih _ _ (pathTerminal_add_preserve h rfl v)

/-! ### The claims -/

/-- Claim C1, counterexample: at the empty word sequence (n = 0) the
original round-trip claim fails on the code — the concatenation is the
empty text and the search succeeds with zero words, but the source then
evaluates `' '.join(ChainLink.EMPTY)`, and `ChainNull` is not iterable,
so the call raises `TypeError` rather than returning a success.  The
dictionary `{"a"}` satisfies the claim's hypotheses and `[]` is a
sequence of words drawn from it. -/
theorem c1_round_trip_counterexample :
    (∀ w ∈ ["a"], w ≠ "") ∧ (∀ w ∈ ([] : List String), w ∈ ["a"]) ∧
    ¬ ∃ out, segment (concatAll ([] : List String)) ["a"] = some (some out) ∧
        concatAll out = concatAll ([] : List String) ∧
        solution_recursive (concatAll ([] : List String)) ["a"]
          = Except.ok (joinWords out) := by
  refine ⟨by decide, by decide, ?_⟩
  rintro ⟨out, hseg, hcat, hsol⟩
  have herr : solution_recursive (concatAll ([] : List String)) ["a"]
      = Except.error PyError.typeError := rfl
  rw [herr] at hsol
  exact Except.noConfusion hsol

/-- Claim C1 (round-trip), amended: for every dictionary of non-empty
words and every non-empty sequence of words drawn from it, segmenting
their concatenation succeeds, the returned chain concatenates character
for character back to the input text, and `solution_recursive` returns it
joined by spaces.  (At the empty sequence the search still succeeds with
zero words, but the source's rendering of the empty chain raises
`TypeError` — see `c1_round_trip_counterexample` — so the sequence is
required to be non-empty.) -/
theorem c1_round_trip (ws sel : List String)
    (hne : ∀ w ∈ ws, w ≠ "") (hsel : ∀ w ∈ sel, w ∈ ws) (hns : sel ≠ []) :
    ∃ out, segment (concatAll sel) ws = some (some out) ∧
      concatAll out = concatAll sel ∧
      solution_recursive (concatAll sel) ws = Except.ok (joinWords out) := by
  obtain ⟨out, hout⟩ := recur_complete ws (concatAll sel).data hne
    ((concatAll sel).data.length + 1) 0 sel (by omega) hsel (List.drop_zero _).symm
  have hseg : segment (concatAll sel) ws = some (some out) := hout
  have hsound := recur_sound ws (concatAll sel).data ((concatAll sel).data.length + 1) 0 out hout
  have hcat : concatAll out = concatAll sel := str_ext (by rw [hsound.1, List.drop_zero])
  have htext : (concatAll sel).data ≠ [] := by
    cases sel with
    | nil => exact absurd rfl hns
    | cons w sel2 =>
      rw [concatAll, str_data_append]
      intro h
      exact str_data_ne_nil (hne w (hsel w (List.mem_cons_self w sel2)))
        (List.append_eq_nil.mp h).1
  cases out with
  | nil =>
    rw [← hcat] at htext
    exact absurd rfl htext
  | cons o out2 =>
    refine ⟨o :: out2, hseg, hcat, ?_⟩
    unfold solution_recursive
    rw [hseg]

theorem c1_round_trip_witness :
    (∀ w ∈ ["in", "is"], w ≠ "") ∧ (∀ w ∈ ["in", "is", "in"], w ∈ ["in", "is"]) ∧
    (["in", "is", "in"] ≠ ([] : List String)) ∧
    ∃ out, segment (concatAll ["in", "is", "in"]) ["in", "is"] = some (some out) ∧
      concatAll out = concatAll ["in", "is", "in"] ∧
      solution_recursive (concatAll ["in", "is", "in"]) ["in", "is"]
        = Except.ok (joinWords out) :=
  ⟨by decide, by decide, by decide,
    c1_round_trip ["in", "is"] ["in", "is", "in"] (by decide) (by decide) (by decide)⟩

/-- Claim C2: the claim says non-segmentable input yields the `NotFound`
marker without an exception; the code instead executes `return Non`
(line 139), a reference to an undefined name, raising `NameError`.  At the
failing input (text `"b"`, dictionary `{"a"}`) the embedded program
returns the `NameError` outcome rather than a first-class marker. -/
theorem c2_notfound_raises :
    solution_recursive "b" ["a"] = Except.error PyError.nameError := by rfl

/-- Claim C3, counterexample: construction does not fail on an empty
dictionary word.  `make_prefix_trie ["", "a"]` returns a complete index —
the root is marked terminal for `""` and `"a"` is fully inserted — and
`make_prefix_trie ["a"]` returns the same index without the root marker;
no `InvalidWord` failure exists anywhere in the code. -/
theorem c3_build_counterexample :
    make_prefix_trie ["", "a"] = Trie.node (some "") [('a', Trie.node (some "a") [])]
      ∧ make_prefix_trie ["a"] = Trie.node none [('a', Trie.node (some "a") [])] :=
  ⟨rfl, rfl⟩

/-- Claim C3, amended: construction never fails; inserting the empty
string merely marks the root node as terminal for the empty word, so
`build({"", "a"})` succeeds (returning a full index holding both words)
and `build({"a"})` succeeds as stated. -/
theorem c3_build_no_validation (ws : List String) (h : "" ∈ ws) :
    terminalOf (make_prefix_trie ws) = some "" ∧
    make_prefix_trie ["", "a"] = Trie.node (some "") [('a', Trie.node (some "a") [])] := by
  constructor
  · rw [← pathTerminal_nil]
    exact (pathTerminal_make ws [] "").mpr ⟨h, rfl⟩
  · rfl

theorem c3_build_no_validation_witness :
    ("" ∈ ["", "a"]) ∧
    (terminalOf (make_prefix_trie ["", "a"]) = some "" ∧
      make_prefix_trie ["", "a"] = Trie.node (some "") [('a', Trie.node (some "a") [])]) :=
  ⟨by decide, c3_build_no_validation ["", "a"] (by decide)⟩

/-- Claim C4: the claim says segmenting the empty text returns a
zero-word success rendering as the empty string, not an exception.  The
search does reach that success — `segment` returns `some (some [])`,
distinct from the no-segmentation marker `some none` — but the source
then evaluates `' '.join(ChainLink.EMPTY)` on line 140, and `ChainNull`
defines no `__iter__`, so the call raises `TypeError` instead of
returning the empty string.  Evaluated here at the failing input: text
`""`, dictionary `{"a"}`. -/
theorem c4_empty_text_typeerror :
    segment "" ["a"] = some (some []) ∧
    (some (some ([] : List String)) ≠ some (none : Option (List String))) ∧
    solution_recursive "" ["a"] = Except.error PyError.typeError :=
  ⟨rfl, by decide, rfl⟩

/-- Claim C5: for a trie built from non-empty dictionary words, the prefix
query at any position yields exactly the dictionary words matching the
text there within the remaining length, in strictly increasing length
order, and yields nothing of length `k` or more once the first `k` symbols
have no matching chain of trie edges. -/
theorem c5_prefix_query (ws : List String) (text : List Char) (pos : Nat)
    (hne : ∀ w ∈ ws, w ≠ "") :
    (∀ p, p ∈ prefixes_of (text.drop pos) (make_prefix_trie ws) ↔
        p ∈ ws ∧ ∃ rest, p.data ++ rest = text.drop pos) ∧
    List.Pairwise (fun a b : String => a.length < b.length)
      (prefixes_of (text.drop pos) (make_prefix_trie ws)) ∧
    (∀ k, nodeAtPath (make_prefix_trie ws) ((text.drop pos).take k) = none →
      ∀ p ∈ prefixes_of (text.drop pos) (make_prefix_trie ws), p.length < k) :=
  ⟨fun p => mem_prefixes_iff ws (text.drop pos) p,
    pairwise_prefixes ws (text.drop pos),
    fun k hk => prefixes_short_circuit ws (text.drop pos) k hk⟩

theorem c5_prefix_query_witness :
    (∀ w ∈ ["in", "ini", "a"], w ≠ "") ∧
    ("in" ∈ prefixes_of (("ininis".data).drop 2) (make_prefix_trie ["in", "ini", "a"]) ↔
      ("in" ∈ ["in", "ini", "a"] ∧ ∃ rest, "in".data ++ rest = ("ininis".data).drop 2)) :=
  ⟨by decide, (c5_prefix_query ["in", "ini", "a"] "ininis".data 2 (by decide)).1 "in"⟩

/-- Claim C6 (determinism): the result of segmenting is a pure function of
the text and the dictionary as a set — two calls with the same text and
any two iteration orders (permutations) of the same dictionary return
identical results, both as a word chain and as the rendered string; in
particular repeated calls with identical arguments agree. -/
theorem c6_deterministic (text : String) (ws1 ws2 : List String) (hp : ws1.Perm ws2) :
    segment text ws1 = segment text ws2 ∧
    solution_recursive text ws1 = solution_recursive text ws2 := by
  have hseg : segment text ws1 = segment text ws2 :=
    recur_perm hp text.data (text.data.length + 1) 0
  refine ⟨hseg, ?_⟩
  unfold solution_recursive
  rw [hseg]

theorem c6_deterministic_witness :
    (List.Perm ["a", "b"] ["b", "a"]) ∧
    segment "ab" ["a", "b"] = segment "ab" ["b", "a"] :=
  ⟨by decide, (c6_deterministic "ab" ["a", "b"] ["b", "a"] (by decide)).1⟩

/-- Claim C7 (termination and memoisation): for non-empty dictionary words
the recursion terminates within call depth `length + 1` (each candidate
word advances the position by at least one, and positions stay in
`0..length`), and the bottom-up memo table — one entry per position,
`length + 1` entries in all, each computed exactly once — agrees with the
recursion at every position. -/
theorem c7_termination_memo (ws : List String) (text : List Char)
    (hne : ∀ w ∈ ws, w ≠ "") :
    (∃ r, recurAux (make_prefix_trie ws) text (text.length + 1) 0 = some r) ∧
    (fillTable (make_prefix_trie ws) text (text.length + 1)).length = text.length + 1 ∧
    (∀ i, i ≤ text.length →
      (fillTable (make_prefix_trie ws) text (text.length + 1)).get? i
        = some (recurRes (make_prefix_trie ws) text i)) := by
  have hfill := fillTable_spec ws text hne (text.length + 1) (by omega)
  refine ⟨⟨recurRes (make_prefix_trie ws) text 0, recurRes_spec ws text hne 0⟩, ?_, ?_⟩
  · rw [hfill, List.length_map, List.length_range]
  · intro i hi
    rw [hfill, get?_map_range _ _ i (by omega)]
    exact congrArg (fun n => some (recurRes (make_prefix_trie ws) text n))
      (by omega : text.length + 1 - (text.length + 1) + i = i)

theorem c7_termination_memo_witness :
    (∀ w ∈ ["ab", "c"], w ≠ "") ∧
    (∃ r, recurAux (make_prefix_trie ["ab", "c"]) "cab".data ("cab".data.length + 1) 0
      = some r) :=
  ⟨by decide, (c7_termination_memo ["ab", "c"] "cab".data (by decide)).1⟩

/-- Claim C8 (concrete scenario): with dictionary
`{"foo","bar","fish","h","is","ini","in"}` and text `"ininisbarfish"`,
segmentation succeeds with the chain `["in","in","is","bar","fish"]`,
which concatenates exactly to the input, renders as
`"in in is bar fish"`, and the same result is produced for every
iteration order of the dictionary set (every run). -/
theorem c8_concrete_scenario :
    segment "ininisbarfish" ["foo", "bar", "fish", "h", "is", "ini", "in"]
        = some (some ["in", "in", "is", "bar", "fish"]) ∧
    concatAll ["in", "in", "is", "bar", "fish"] = "ininisbarfish" ∧
    solution_recursive "ininisbarfish" ["foo", "bar", "fish", "h", "is", "ini", "in"]
        = Except.ok "in in is bar fish" ∧
    ∀ ws2 : List String, List.Perm ["foo", "bar", "fish", "h", "is", "ini", "in"] ws2 →
      solution_recursive "ininisbarfish" ws2 = Except.ok "in in is bar fish" := by
  refine ⟨by rfl, by rfl, by rfl, ?_⟩
  intro ws2 hp
  unfold solution_recursive segment
  rw [← recur_perm hp "ininisbarfish".data]
  rfl

theorem c8_concrete_scenario_witness :
    (List.Perm ["foo", "bar", "fish", "h", "is", "ini", "in"]
        ["in", "ini", "is", "h", "fish", "bar", "foo"]) ∧
    solution_recursive "ininisbarfish" ["in", "ini", "is", "h", "fish", "bar", "foo"]
      = Except.ok "in in is bar fish" :=
  ⟨by decide,
    c8_concrete_scenario.2.2.2 ["in", "ini", "is", "h", "fish", "bar", "foo"] (by decide)⟩

/-- Claim C9 (idempotent insertion): re-inserting a non-empty word into a
trie that already contains it changes nothing — inserting a word twice in
a row equals inserting it once, and building a trie from a word list
containing the same word twice equals building it with the duplicate
removed; no error is raised (the functions are total). -/
theorem c9_idempotent_insert :
    (∀ (t : Trie) (w : String), w ≠ "" →
      add_to_prefix_trie (add_to_prefix_trie t w) w = add_to_prefix_trie t w) ∧
    (∀ (l1 l2 l3 : List String) (w : String), w ≠ "" →
      make_prefix_trie (l1 ++ w :: (l2 ++ w :: l3))
        = make_prefix_trie (l1 ++ w :: (l2 ++ l3))) := by
  constructor
  · intro t w _
    have hp : pathTerminal (add_to_prefix_trie t w) w.data = some w := by
      rw [add_to_prefix_trie, pathTerminal_add w w.data t w.data]
      exact if_pos rfl
    exact addToTrie_absorb w.data (add_to_prefix_trie t w) w hp
  · intro l1 l2 l3 w _
    unfold make_prefix_trie
    simp only [List.foldl_append, List.foldl_cons]
    have hp0 : pathTerminal
        (add_to_prefix_trie (List.foldl add_to_prefix_trie (Trie.node none []) l1) w) w.data
        = some w := by
      rw [add_to_prefix_trie, pathTerminal_add w w.data _ w.data]
      exact if_pos rfl
    have hp1 : pathTerminal
        (List.foldl add_to_prefix_trie
          (add_to_prefix_trie (List.foldl add_to_prefix_trie (Trie.node none []) l1) w) l2)
        w.data = some w :=
      pathTerminal_foldl_preserve l2 _ w hp0
    have habs : add_to_prefix_trie
        (List.foldl add_to_prefix_trie
          (add_to_prefix_trie (List.foldl add_to_prefix_trie (Trie.node none []) l1) w) l2) w
        = List.foldl add_to_prefix_trie
            (add_to_prefix_trie (List.foldl add_to_prefix_trie (Trie.node none []) l1) w) l2 :=
      addToTrie_absorb w.data _ w hp1
    rw [habs]

theorem c9_idempotent_insert_witness :
    ("a" ≠ "") ∧
    add_to_prefix_trie (add_to_prefix_trie (Trie.node none []) "a") "a"
      = add_to_prefix_trie (Trie.node none []) "a" :=
  ⟨by decide, c9_idempotent_insert.1 (Trie.node none []) "a" (by decide)⟩

/-- Claim C10 (output words come from the dictionary): whenever
segmentation of any text over a dictionary of non-empty words succeeds,
every word of the returned chain is a member of the dictionary — the
prefix query never yields a string that was not inserted into the trie. -/
theorem c10_words_from_dict (ws : List String) (text : String) (out : List String)
    (hne : ∀ w ∈ ws, w ≠ "") (h : segment text ws = some (some out)) :
    ∀ w ∈ out, w ∈ ws :=
  (recur_sound ws text.data (text.data.length + 1) 0 out h).2

theorem c10_words_from_dict_witness :
    (∀ w ∈ ["ab", "c"], w ≠ "") ∧
    segment "cab" ["ab", "c"] = some (some ["c", "ab"]) ∧
    (∀ w ∈ ["c", "ab"], w ∈ ["ab", "c"]) :=
  ⟨by decide, by rfl, c10_words_from_dict ["ab", "c"] "cab" ["c", "ab"] (by decide) (by rfl)⟩

end ParseWords
